import Mathlib

/-!
Shallow embedding of the yasm deterministic state-machine library
(`src/core.rs`, `src/instance.rs`, `src/callbacks.rs`, `src/query.rs`,
`src/macros.rs`) together with theorems checking the specification's
claims against it.

Conventions of the embedding:
* The Rust trait `StateMachine` (core.rs) becomes a bundled structure of
  its operations over state type `σ` and input type `ι`.
* `VecDeque` history becomes a `List` whose head is the front (oldest);
  `push_back` appends, `pop_front` is `List.tail`.
* Callbacks are represented by opaque identifiers of a type `κ`; instead
  of running side effects, triggering produces the list of dispatched
  callback events in execution order.
* A Rust panic (the `unwrap` on `history.back()` in
  `StateMachineInstance::transition`) is a distinct `panicked` outcome.
* Worklist loops (`reachable_states`, `shortest_path`) are embedded with
  an explicit fuel parameter; running out of fuel yields `none` at the
  outer `Option` layer, and we prove the chosen fuel never runs out.
-/

namespace Yasm

/-- The `StateMachine` trait of `core.rs`, bundled as a structure:
states, inputs, per-state valid inputs, the deterministic next-state
function, and the initial state. -/
structure StateMachine (σ ι : Type) where
  states : List σ
  inputs : List ι
  valid_inputs : σ → List ι
  next_state : σ → ι → Option σ
  initial_state : σ

/-- One dispatched callback event.  `entry c s` means entry callback `c`
was invoked with state `s`; `exit c s` an exit callback; `trans c a i b`
a transition callback invoked with `(from, input, to) = (a, i, b)`. -/
inductive CBEvent (σ ι κ : Type) where
  | entry (cb : κ) (s : σ)
  | exit (cb : κ) (s : σ)
  | trans (cb : κ) (src : σ) (inp : ι) (dst : σ)
  deriving DecidableEq

/-- The `CallbackRegistry` of `callbacks.rs`.  The three `HashMap`s keyed
by state / (state, input) become functions returning the registered list
(the `HashMap::get` miss case is the empty list, matching `or_default`);
the three global `Vec`s become lists.  List order is registration order. -/
structure CallbackRegistry (σ ι κ : Type) where
  state_entry_callbacks : σ → List κ
  state_exit_callbacks : σ → List κ
  transition_callbacks : σ → ι → List κ
  global_entry_callbacks : List κ
  global_exit_callbacks : List κ
  global_transition_callbacks : List κ

/-- `CallbackRegistry::new`. -/
def CallbackRegistry.new : CallbackRegistry σ ι κ :=
  ⟨fun _ => [], fun _ => [], fun _ _ => [], [], [], []⟩

/-- `CallbackRegistry::on_state_entry`: push onto the vector for `s`. -/
def CallbackRegistry.on_state_entry [DecidableEq σ]
    (r : CallbackRegistry σ ι κ) (s : σ) (c : κ) : CallbackRegistry σ ι κ :=
  { r with state_entry_callbacks :=
      fun x => if x = s then r.state_entry_callbacks x ++ [c] else r.state_entry_callbacks x }

/-- `CallbackRegistry::on_state_exit`. -/
def CallbackRegistry.on_state_exit [DecidableEq σ]
    (r : CallbackRegistry σ ι κ) (s : σ) (c : κ) : CallbackRegistry σ ι κ :=
  { r with state_exit_callbacks :=
      fun x => if x = s then r.state_exit_callbacks x ++ [c] else r.state_exit_callbacks x }

/-- `CallbackRegistry::on_transition`: push onto the vector for the key
`(from_state, input)`. -/
def CallbackRegistry.on_transition [DecidableEq σ] [DecidableEq ι]
    (r : CallbackRegistry σ ι κ) (s : σ) (i : ι) (c : κ) : CallbackRegistry σ ι κ :=
  { r with transition_callbacks :=
      fun x j => if x = s ∧ j = i then r.transition_callbacks x j ++ [c]
                 else r.transition_callbacks x j }

/-- `CallbackRegistry::on_any_state_entry`. -/
def CallbackRegistry.on_any_state_entry
    (r : CallbackRegistry σ ι κ) (c : κ) : CallbackRegistry σ ι κ :=
  { r with global_entry_callbacks := r.global_entry_callbacks ++ [c] }

/-- `CallbackRegistry::on_any_state_exit`. -/
def CallbackRegistry.on_any_state_exit
    (r : CallbackRegistry σ ι κ) (c : κ) : CallbackRegistry σ ι κ :=
  { r with global_exit_callbacks := r.global_exit_callbacks ++ [c] }

/-- `CallbackRegistry::on_any_transition`. -/
def CallbackRegistry.on_any_transition
    (r : CallbackRegistry σ ι κ) (c : κ) : CallbackRegistry σ ι κ :=
  { r with global_transition_callbacks := r.global_transition_callbacks ++ [c] }

/-- `CallbackRegistry::trigger_state_entry`: global entry callbacks first,
then the state-specific ones, each in stored (registration) order. -/
def CallbackRegistry.trigger_state_entry
    (r : CallbackRegistry σ ι κ) (s : σ) : List (CBEvent σ ι κ) :=
  r.global_entry_callbacks.map (fun c => CBEvent.entry c s) ++
    (r.state_entry_callbacks s).map (fun c => CBEvent.entry c s)

/-- `CallbackRegistry::trigger_state_exit`: global exit callbacks first,
then the state-specific ones. -/
def CallbackRegistry.trigger_state_exit
    (r : CallbackRegistry σ ι κ) (s : σ) : List (CBEvent σ ι κ) :=
  r.global_exit_callbacks.map (fun c => CBEvent.exit c s) ++
    (r.state_exit_callbacks s).map (fun c => CBEvent.exit c s)

/-- `CallbackRegistry::trigger_transition`: global transition callbacks
first, then the `(from_state, input)`-specific ones. -/
def CallbackRegistry.trigger_transition
    (r : CallbackRegistry σ ι κ) (src : σ) (i : ι) (dst : σ) : List (CBEvent σ ι κ) :=
  r.global_transition_callbacks.map (fun c => CBEvent.trans c src i dst) ++
    (r.transition_callbacks src i).map (fun c => CBEvent.trans c src i dst)

/-- `DEFAULT_MAX_HISTORY_SIZE` from `lib.rs`. -/
def DEFAULT_MAX_HISTORY_SIZE : Nat := 512

/-- The `StateMachineInstance` of `instance.rs`: current state, history
deque (head = oldest), maximum history size, callback registry. -/
structure StateMachineInstance (σ ι κ : Type) where
  current_state : σ
  history : List (σ × ι)
  max_history_size : Nat
  callback_registry : CallbackRegistry σ ι κ

/-- `StateMachineInstance::with_max_history`. -/
def StateMachineInstance.with_max_history (M : StateMachine σ ι) (κ : Type)
    (max_size : Nat) : StateMachineInstance σ ι κ :=
  ⟨M.initial_state, [], max_size, CallbackRegistry.new⟩

/-- `StateMachineInstance::new` (default history size). -/
def StateMachineInstance.new (M : StateMachine σ ι) (κ : Type) :
    StateMachineInstance σ ι κ :=
  ⟨M.initial_state, [], DEFAULT_MAX_HISTORY_SIZE, CallbackRegistry.new⟩

/-- `StateMachineInstance::can_accept`: membership of the input in the
valid-input vector for the current state. -/
def StateMachineInstance.can_accept [DecidableEq ι]
    (inst : StateMachineInstance σ ι κ) (M : StateMachine σ ι) (i : ι) : Bool :=
  decide (i ∈ M.valid_inputs inst.current_state)

/-- Outcome of `StateMachineInstance::transition`.  The two `Err` strings
of the source are represented structurally with the data they format
(`"Invalid input .. for state .."` and `"No valid transition from state
.. with input .."`); `panicked` models the `unwrap()` panic on an empty
history back. -/
inductive TransitionResult (σ ι : Type) where
  | ok (new_state : σ)
  | invalidInput (state : σ) (input : ι)
  | noTransition (state : σ) (input : ι)
  | panicked
  deriving DecidableEq

/-- `StateMachineInstance::transition` (instance.rs lines 80-126),
step for step: validity check; deterministic next-state lookup; exit
callbacks when the state changes; transition callbacks; history
`push_back` then `pop_front` when over the limit; current-state update;
entry callbacks guarded by comparing the new current state with the
`unwrap`ped back of the history (which panics when the history is empty
at that point).  Returns the outcome, the updated instance, and the
dispatched callback events in order. -/
def StateMachineInstance.transition [DecidableEq σ] [DecidableEq ι]
    (inst : StateMachineInstance σ ι κ) (M : StateMachine σ ι) (input : ι) :
    TransitionResult σ ι × StateMachineInstance σ ι κ × List (CBEvent σ ι κ) :=
  if inst.can_accept M input then
    match M.next_state inst.current_state input with
    | some new_state =>
      let old_state := inst.current_state
      let exitEvents :=
        if old_state ≠ new_state then inst.callback_registry.trigger_state_exit old_state
        else []
      let transEvents := inst.callback_registry.trigger_transition old_state input new_state
      let hist1 := inst.history ++ [(old_state, input)]
      let hist2 := if inst.max_history_size < hist1.length then hist1.tail else hist1
      let inst' := { inst with history := hist2, current_state := new_state }
      match hist2.getLast? with
      | some back =>
        let entryEvents :=
          if new_state ≠ back.1 then inst.callback_registry.trigger_state_entry new_state
          else []
        (TransitionResult.ok new_state, inst', exitEvents ++ transEvents ++ entryEvents)
      | none => (TransitionResult.panicked, inst', exitEvents ++ transEvents)
    | none => (TransitionResult.noTransition inst.current_state input, inst, [])
  else (TransitionResult.invalidInput inst.current_state input, inst, [])

/-- The back of the history deque right after the push/evict step of a
successful transition is the pushed record, whenever the back exists. -/
lemma back_of_push {α : Type} (l : List α) (x : α) (m : Nat) (b : α)
    (h : (if m < (l ++ [x]).length then (l ++ [x]).tail else l ++ [x]).getLast? = some b) :
    b = x := by
  rcases l with _ | ⟨a, l'⟩
  · split at h <;> simp_all
  · split at h
    · simp_all
    · simp only [List.getLast?_concat] at h
      simp_all

/-- Inversion of the `ok` branch of `transition`: it implies the input
was accepted, the definition produced the new state, and it determines
the updated instance and the dispatched event list. -/
lemma transition_ok_inversion [DecidableEq σ] [DecidableEq ι]
    {M : StateMachine σ ι} {inst inst' : StateMachineInstance σ ι κ}
    {i : ι} {s' : σ} {evs : List (CBEvent σ ι κ)}
    (h : inst.transition M i = (TransitionResult.ok s', inst', evs)) :
    inst.can_accept M i = true ∧
    M.next_state inst.current_state i = some s' ∧
    inst'.current_state = s' ∧
    inst'.max_history_size = inst.max_history_size ∧
    inst'.callback_registry = inst.callback_registry ∧
    inst'.history =
      (if inst.max_history_size < (inst.history ++ [(inst.current_state, i)]).length
        then (inst.history ++ [(inst.current_state, i)]).tail
        else inst.history ++ [(inst.current_state, i)]) ∧
    inst'.history.getLast? = some (inst.current_state, i) ∧
    evs =
      (if inst.current_state ≠ s'
        then inst.callback_registry.trigger_state_exit inst.current_state else []) ++
      inst.callback_registry.trigger_transition inst.current_state i s' ++
      (if s' ≠ inst.current_state
        then inst.callback_registry.trigger_state_entry s' else []) := by
  unfold StateMachineInstance.transition at h
  split at h
  case isFalse hacc => simp at h
  case isTrue hacc =>
    split at h
    case h_2 => simp at h
    case h_1 ns hnext =>
      simp only [] at h
      split at h
      case h_2 => simp at h
      case h_1 back hback =>
        simp only [Prod.mk.injEq, TransitionResult.ok.injEq] at h
        obtain ⟨hns, hinst, hevs⟩ := h
        subst hns
        subst hinst
        have hb : back = (inst.current_state, i) := back_of_push _ _ _ _ hback
        subst hb
        refine ⟨hacc, hnext, rfl, rfl, rfl, rfl, ?_, ?_⟩
        · exact hback
        · exact hevs.symm

/-! Concrete machines used as witnesses.  `doorM` is the door machine of
the specification's end-to-end scenario 1; it is exactly what
`define_state_machine!` generates from that transition table.  `loopM`
is a two-state machine with a self-loop, with a callback registry holding
one callback on each of the six surfaces (plus a second specific
transition callback for the self-loop edge). -/

inductive DoorState where
  | Closed | Open | Locked
  deriving DecidableEq, Fintype

inductive DoorInput where
  | OpenDoor | CloseDoor | Lock | Unlock
  deriving DecidableEq, Fintype

/-- The door machine of spec scenario 1 (`Closed+OpenDoor=>Open`,
`Open+CloseDoor=>Closed`, `Closed+Lock=>Locked`, `Locked+Unlock=>Closed`,
initial `Closed`). -/
def doorM : StateMachine DoorState DoorInput where
  states := [.Closed, .Open, .Locked]
  inputs := [.OpenDoor, .CloseDoor, .Lock, .Unlock]
  valid_inputs := fun s =>
    match s with
    | .Closed => [.OpenDoor, .Lock]
    | .Open => [.CloseDoor]
    | .Locked => [.Unlock]
  next_state := fun s i =>
    match s, i with
    | .Closed, .OpenDoor => some .Open
    | .Closed, .Lock => some .Locked
    | .Open, .CloseDoor => some .Closed
    | .Locked, .Unlock => some .Closed
    | _, _ => none
  initial_state := .Closed

/-- A fresh default-size instance of the door machine. -/
def doorInst : StateMachineInstance DoorState DoorInput Nat :=
  StateMachineInstance.new doorM Nat

inductive LState where
  | SA | SB
  deriving DecidableEq, Fintype

inductive LInput where
  | Go | Loop
  deriving DecidableEq, Fintype

/-- Two-state machine with a self-loop on `SA`. -/
def loopM : StateMachine LState LInput where
  states := [.SA, .SB]
  inputs := [.Go, .Loop]
  valid_inputs := fun s =>
    match s with
    | .SA => [.Go, .Loop]
    | .SB => []
  next_state := fun s i =>
    match s, i with
    | .SA, .Go => some .SB
    | .SA, .Loop => some .SA
    | _, _ => none
  initial_state := .SA

/-- A registry with one callback on every dispatch surface (identified
by number), registered in the listed order. -/
def loopRegistry : CallbackRegistry LState LInput Nat :=
  ((((((((CallbackRegistry.new.on_any_state_exit 1).on_state_exit .SA 2).on_any_transition
    3).on_transition .SA .Go 4).on_transition .SA .Loop 40).on_any_state_entry
    5).on_state_entry .SB 6).on_state_entry .SA 7)

/-- Instance of `loopM` at `SA` with the registry above. -/
def loopInst : StateMachineInstance LState LInput Nat :=
  { current_state := .SA, history := [], max_history_size := 2,
    callback_registry := loopRegistry }

/-- Expected instance after `transition(Go)` on `loopInst`. -/
def loopInstAfterGo : StateMachineInstance LState LInput Nat :=
  { current_state := .SB, history := [(.SA, .Go)], max_history_size := 2,
    callback_registry := loopRegistry }

/-- The event trace of `transition(Go)` on `loopInst`. -/
def loopEvsGo : List (CBEvent LState LInput Nat) :=
  (loopInst.transition loopM LInput.Go).2.2

/-- Expected instance after `transition(Loop)` on `loopInst`. -/
def loopInstAfterLoop : StateMachineInstance LState LInput Nat :=
  { current_state := .SA, history := [(.SA, .Loop)], max_history_size := 2,
    callback_registry := loopRegistry }

/-- The event trace of `transition(Loop)` on `loopInst`. -/
def loopEvsLoop : List (CBEvent LState LInput Nat) :=
  (loopInst.transition loopM LInput.Loop).2.2

/-- Claim C2: an input that is not in `valid_inputs()` at the current
state makes `transition` fail with the invalid-input error carrying the
offending state and input, leaving the instance (current state and
history) unchanged and dispatching no callbacks. -/
theorem invalid_input_rejected [DecidableEq σ] [DecidableEq ι]
    (M : StateMachine σ ι) (inst : StateMachineInstance σ ι κ) (i : ι)
    (h : i ∉ M.valid_inputs inst.current_state) :
    inst.transition M i = (TransitionResult.invalidInput inst.current_state i, inst, []) := by
  simp [StateMachineInstance.transition, StateMachineInstance.can_accept, h]

/-- Witness for C2: from `Closed`, `CloseDoor` is not valid; the
transition is rejected with the invalid-input error and no change. -/
theorem invalid_input_rejected_witness :
    (DoorInput.CloseDoor ∉ doorM.valid_inputs doorInst.current_state) ∧
    doorInst.transition doorM DoorInput.CloseDoor =
      (TransitionResult.invalidInput DoorState.Closed DoorInput.CloseDoor, doorInst, []) :=
  ⟨by decide, invalid_input_rejected doorM doorInst DoorInput.CloseDoor (by decide)⟩

/-- Claim C1 (as the code actually behaves): on an instance created with
maximum history size 0, a valid transition reaches the `unwrap()` of the
empty history back and panics instead of returning `Ok`. -/
theorem max_history_zero_transition_panics :
    ((StateMachineInstance.with_max_history doorM Unit 0).transition doorM
        DoorInput.OpenDoor).1 = TransitionResult.panicked := by
  rfl

/-- General form of the max-history-0 panic: on any instance with
`max_history_size = 0` and empty history, any accepted input whose
next state exists makes `transition` panic. -/
theorem max_history_zero_transition_panics_general [DecidableEq σ] [DecidableEq ι]
    (M : StateMachine σ ι) (inst : StateMachineInstance σ ι κ) (i : ι) (s' : σ)
    (hmax : inst.max_history_size = 0) (hh : inst.history = [])
    (hacc : i ∈ M.valid_inputs inst.current_state)
    (hn : M.next_state inst.current_state i = some s') :
    (inst.transition M i).1 = TransitionResult.panicked := by
  simp [StateMachineInstance.transition, StateMachineInstance.can_accept, hacc, hn, hmax, hh]

/-- Claim C4: a successful self-loop transition appends the record to the
history (it becomes the back of the deque) and dispatches exactly the
transition callbacks (global ones first, then the `(state, input)`
specific ones), with no entry and no exit callback events. -/
theorem self_loop_suppresses_entry_exit [DecidableEq σ] [DecidableEq ι]
    {M : StateMachine σ ι} {inst inst' : StateMachineInstance σ ι κ} {i : ι} {s' : σ}
    {evs : List (CBEvent σ ι κ)}
    (h : inst.transition M i = (TransitionResult.ok s', inst', evs))
    (hself : s' = inst.current_state) :
    inst'.history.getLast? = some (inst.current_state, i) ∧
    evs = inst.callback_registry.global_transition_callbacks.map
        (fun c => CBEvent.trans c inst.current_state i s') ++
      (inst.callback_registry.transition_callbacks inst.current_state i).map
        (fun c => CBEvent.trans c inst.current_state i s') ∧
    (∀ (c : κ) (s : σ), CBEvent.entry c s ∉ evs) ∧
    (∀ (c : κ) (s : σ), CBEvent.exit c s ∉ evs) := by
  obtain ⟨-, -, -, -, -, -, hlast, hevs⟩ := transition_ok_inversion h
  subst hself
  simp only [ne_eq, not_true_eq_false, if_false, ite_self] at hevs
  refine ⟨hlast, ?_, ?_, ?_⟩
  · rw [hevs]
    simp [CallbackRegistry.trigger_transition]
  · intro c s hc
    rw [hevs] at hc
    simp [CallbackRegistry.trigger_transition] at hc
  · intro c s hc
    rw [hevs] at hc
    simp [CallbackRegistry.trigger_transition] at hc

/-- Witness for C4: the self loop `SA --Loop--> SA` on `loopInst`
succeeds, appends `(SA, Loop)`, fires exactly the two transition
callbacks in order (global 3 then specific 40), and fires none of the
registered entry/exit callbacks. -/
theorem self_loop_suppresses_entry_exit_witness :
    loopInst.transition loopM LInput.Loop =
      (TransitionResult.ok LState.SA, loopInstAfterLoop, loopEvsLoop) ∧
    LState.SA = loopInst.current_state ∧
    loopInstAfterLoop.history.getLast? = some (LState.SA, LInput.Loop) ∧
    loopEvsLoop = [CBEvent.trans 3 LState.SA LInput.Loop LState.SA,
      CBEvent.trans 40 LState.SA LInput.Loop LState.SA] ∧
    CBEvent.entry 5 LState.SA ∉ loopEvsLoop ∧
    CBEvent.exit 1 LState.SA ∉ loopEvsLoop := by
  have h := @self_loop_suppresses_entry_exit LState LInput Nat _ _ loopM
    loopInst loopInstAfterLoop LInput.Loop LState.SA loopEvsLoop (by rfl) (by rfl)
  exact ⟨rfl, rfl, h.1, h.2.1.trans (by decide), h.2.2.1 5 LState.SA, h.2.2.2 1 LState.SA⟩

/-- Claim C7: the event trace of a successful transition is: global exit
then state-specific exit (only when the state changes), then global
transition then `(from, input)`-specific transition, then global entry
then state-specific entry (only when the state changes); and each of the
six registration surfaces appends at registration time, so stored order
is registration order. -/
theorem callback_dispatch_order [DecidableEq σ] [DecidableEq ι]
    {M : StateMachine σ ι} {inst inst' : StateMachineInstance σ ι κ} {i : ι} {s' : σ}
    {evs : List (CBEvent σ ι κ)}
    (h : inst.transition M i = (TransitionResult.ok s', inst', evs)) :
    evs =
      (if inst.current_state ≠ s'
        then inst.callback_registry.global_exit_callbacks.map
            (fun c => CBEvent.exit c inst.current_state) ++
          (inst.callback_registry.state_exit_callbacks inst.current_state).map
            (fun c => CBEvent.exit c inst.current_state)
        else []) ++
      (inst.callback_registry.global_transition_callbacks.map
          (fun c => CBEvent.trans c inst.current_state i s') ++
        (inst.callback_registry.transition_callbacks inst.current_state i).map
          (fun c => CBEvent.trans c inst.current_state i s')) ++
      (if inst.current_state ≠ s'
        then inst.callback_registry.global_entry_callbacks.map (fun c => CBEvent.entry c s') ++
          (inst.callback_registry.state_entry_callbacks s').map (fun c => CBEvent.entry c s')
        else []) ∧
    (∀ (r : CallbackRegistry σ ι κ) (c : κ),
      (r.on_any_state_exit c).global_exit_callbacks = r.global_exit_callbacks ++ [c]) ∧
    (∀ (r : CallbackRegistry σ ι κ) (s : σ) (c : κ),
      (r.on_state_exit s c).state_exit_callbacks s = r.state_exit_callbacks s ++ [c]) ∧
    (∀ (r : CallbackRegistry σ ι κ) (c : κ),
      (r.on_any_transition c).global_transition_callbacks =
        r.global_transition_callbacks ++ [c]) ∧
    (∀ (r : CallbackRegistry σ ι κ) (s : σ) (j : ι) (c : κ),
      (r.on_transition s j c).transition_callbacks s j = r.transition_callbacks s j ++ [c]) ∧
    (∀ (r : CallbackRegistry σ ι κ) (c : κ),
      (r.on_any_state_entry c).global_entry_callbacks = r.global_entry_callbacks ++ [c]) ∧
    (∀ (r : CallbackRegistry σ ι κ) (s : σ) (c : κ),
      (r.on_state_entry s c).state_entry_callbacks s = r.state_entry_callbacks s ++ [c]) := by
  obtain ⟨-, -, -, -, -, -, -, hevs⟩ := transition_ok_inversion h
  refine ⟨?_, ?_, ?_, ?_, ?_, ?_, ?_⟩
  · rw [hevs]
    by_cases hne : inst.current_state = s'
    · subst hne
      simp [CallbackRegistry.trigger_transition]
    · simp [CallbackRegistry.trigger_state_exit, CallbackRegistry.trigger_transition,
        CallbackRegistry.trigger_state_entry, hne, Ne.symm hne]
  · intro r c
    simp [CallbackRegistry.on_any_state_exit]
  · intro r s c
    simp [CallbackRegistry.on_state_exit]
  · intro r c
    simp [CallbackRegistry.on_any_transition]
  · intro r s j c
    simp [CallbackRegistry.on_transition]
  · intro r c
    simp [CallbackRegistry.on_any_state_entry]
  · intro r s c
    simp [CallbackRegistry.on_state_entry]

/-- Witness for C7: the state-changing transition `SA --Go--> SB` on
`loopInst` fires, in order: global exit 1, specific exit 2, global
transition 3, specific transition 4, global entry 5, specific entry 6. -/
theorem callback_dispatch_order_witness :
    loopInst.transition loopM LInput.Go =
      (TransitionResult.ok LState.SB, loopInstAfterGo, loopEvsGo) ∧
    loopEvsGo = [CBEvent.exit 1 LState.SA, CBEvent.exit 2 LState.SA,
      CBEvent.trans 3 LState.SA LInput.Go LState.SB,
      CBEvent.trans 4 LState.SA LInput.Go LState.SB,
      CBEvent.entry 5 LState.SB, CBEvent.entry 6 LState.SB] := by
  have h := (@callback_dispatch_order LState LInput Nat _ _ loopM
    loopInst loopInstAfterGo LInput.Go LState.SB loopEvsGo (by rfl)).1
  exact ⟨by rfl, h.trans (by decide)⟩

/-! History ring-buffer semantics (claim C3). -/

/-- The last `n` elements of a list (what a FIFO ring buffer of capacity
`n` retains after pushing the whole list). -/
def lastN {α : Type} (n : Nat) (l : List α) : List α := l.drop (l.length - n)

/-- Run a list of inputs through `transition`, succeeding only when every
single transition returns `Ok` (spec: a sequence of successful
transitions). -/
def runOk [DecidableEq σ] [DecidableEq ι] (M : StateMachine σ ι) :
    StateMachineInstance σ ι κ → List ι → Option (StateMachineInstance σ ι κ)
  | inst, [] => some inst
  | inst, i :: rest =>
    match inst.transition M i with
    | (TransitionResult.ok _, inst', _) => runOk M inst' rest
    | _ => none

/-- The chronological `(from_state, input)` record of a run, oldest
first, mirroring what `transition` pushes on each success. -/
def chronRecords (M : StateMachine σ ι) : σ → List ι → List (σ × ι)
  | _, [] => []
  | s, i :: rest =>
    match M.next_state s i with
    | some s' => (s, i) :: chronRecords M s' rest
    | none => []

/-- Push-then-evict equals keeping the last `N` elements, provided the
deque respected the bound before the push. -/
lemma hist_step {α : Type} (h : List α) (x : α) (N : Nat) (hle : h.length ≤ N) :
    (if N < (h ++ [x]).length then (h ++ [x]).tail else h ++ [x]) = lastN N (h ++ [x]) := by
  unfold lastN
  rw [List.length_append, List.length_singleton]
  by_cases hc : N < h.length + 1
  · rw [if_pos (by simpa using hc)]
    have hN : h.length + 1 - N = 1 := by omega
    rw [hN, List.drop_one]
  · rw [if_neg (by simpa using hc)]
    have hN : h.length + 1 - N = 0 := by omega
    rw [hN, List.drop_zero]

/-- Keeping the last `N` absorbs an earlier truncation to the last `N`. -/
lemma lastN_append {α : Type} (N : Nat) (a b : List α) :
    lastN N (lastN N a ++ b) = lastN N (a ++ b) := by
  unfold lastN
  rw [List.length_append, List.length_append, List.length_drop,
    List.drop_append_eq_append_drop, List.drop_append_eq_append_drop, List.drop_drop,
    List.length_drop]
  congr 1
  · congr 1
    omega
  · congr 1
    omega

/-- Invariant of `runOk`: the history is always the last
`max_history_size` records of the accumulated chronological record. -/
lemma runOk_spec [DecidableEq σ] [DecidableEq ι] (M : StateMachine σ ι) :
    ∀ (inputs : List ι) (inst inst' : StateMachineInstance σ ι κ) (acc : List (σ × ι)),
      inst.history = lastN inst.max_history_size acc →
      runOk M inst inputs = some inst' →
      inst'.max_history_size = inst.max_history_size ∧
      inst'.history =
        lastN inst.max_history_size (acc ++ chronRecords M inst.current_state inputs) ∧
      (chronRecords M inst.current_state inputs).length = inputs.length := by
  intro inputs
  induction inputs with
  | nil =>
    intro inst inst' acc hh hr
    simp only [runOk] at hr
    cases hr
    simp [chronRecords, hh]
  | cons i rest ih =>
    intro inst inst' acc hh hr
    unfold runOk at hr
    split at hr
    case h_2 heq hne => cases hr
    case h_1 s inst₁ evs heq =>
      obtain ⟨hacc2, hnext, hcur, hmax, hreg, hhist, hlast, hevs⟩ := transition_ok_inversion heq
      have hlen : inst.history.length ≤ inst.max_history_size := by
        rw [hh]
        simp only [lastN, List.length_drop]
        omega
      have h1 : inst₁.history =
          lastN inst.max_history_size (inst.history ++ [(inst.current_state, i)]) := by
        rw [hhist, hist_step _ _ _ hlen]
      have h2 : inst₁.history =
          lastN inst₁.max_history_size (acc ++ [(inst.current_state, i)]) := by
        rw [hmax, h1, hh, lastN_append]
      obtain ⟨m1, m2, m3⟩ := ih inst₁ inst' (acc ++ [(inst.current_state, i)]) h2 hr
      have hchron : chronRecords M inst.current_state (i :: rest) =
          (inst.current_state, i) :: chronRecords M s rest := by
        simp only [chronRecords, hnext]
      refine ⟨m1.trans hmax, ?_, ?_⟩
      · rw [hchron, m2, hmax, hcur]
        congr 1
        simp
      · rw [hchron]
        simp [hcur ▸ m3]

/-- Any single `transition` call preserves the history bound
`history.length ≤ max_history_size`, whatever its outcome. -/
lemma transition_hist_le [DecidableEq σ] [DecidableEq ι]
    (M : StateMachine σ ι) (inst : StateMachineInstance σ ι κ) (j : ι)
    (hl : inst.history.length ≤ inst.max_history_size) :
    ((inst.transition M j).2.1).history.length ≤ inst.max_history_size := by
  unfold StateMachineInstance.transition
  split
  case isFalse => exact hl
  case isTrue =>
    split
    case h_2 => exact hl
    case h_1 s hnext =>
      simp only []
      split <;> simp <;> split <;> simp <;> omega

/-- Claim C3: after any sequence of `M` successful transitions on a fresh
instance with maximum history size `N`, the history has length
`min M N` and consists of exactly the last `min M N` chronological
`(from_state, input)` records, oldest first; and the bound
`history.length ≤ max_history_size` is preserved by every transition. -/
theorem history_ring_semantics [DecidableEq σ] [DecidableEq ι]
    (M : StateMachine σ ι) (N : Nat) (inputs : List ι)
    (inst' : StateMachineInstance σ ι κ)
    (h : runOk M (StateMachineInstance.with_max_history M κ N) inputs = some inst') :
    inst'.history.length = min inputs.length N ∧
    (chronRecords M M.initial_state inputs).length = inputs.length ∧
    inst'.history = (chronRecords M M.initial_state inputs).drop (inputs.length - N) ∧
    ∀ (inst2 : StateMachineInstance σ ι κ) (j : ι),
      inst2.history.length ≤ inst2.max_history_size →
      ((inst2.transition M j).2.1).history.length ≤ inst2.max_history_size := by
  obtain ⟨m1, m2, m3⟩ := runOk_spec M inputs (StateMachineInstance.with_max_history M κ N)
    inst' [] (by simp [StateMachineInstance.with_max_history, lastN]) h
  simp only [StateMachineInstance.with_max_history, List.nil_append] at m1 m2 m3
  refine ⟨?_, m3, ?_, ?_⟩
  · rw [m2]
    simp only [lastN, List.length_drop, m3]
    omega
  · rw [m2]
    simp only [lastN, m3]
  · intro inst2 j hle
    exact transition_hist_le M inst2 j hle

/-- Input sequence for the C3 witness run. -/
def doorRunInputs : List DoorInput := [.OpenDoor, .CloseDoor, .OpenDoor]

/-- Expected instance after running `doorRunInputs` with capacity 2. -/
def doorInstC3 : StateMachineInstance DoorState DoorInput Nat :=
  { current_state := .Open, history := [(.Open, .CloseDoor), (.Closed, .OpenDoor)],
    max_history_size := 2, callback_registry := CallbackRegistry.new }

/-- Witness for C3: three successful door transitions with capacity 2
retain exactly the last two records, oldest first. -/
theorem history_ring_semantics_witness :
    runOk doorM (StateMachineInstance.with_max_history doorM Nat 2) doorRunInputs =
      some doorInstC3 ∧
    doorInstC3.history.length = min 3 2 ∧
    doorInstC3.history =
      (chronRecords doorM doorM.initial_state doorRunInputs).drop (3 - 2) := by
  have h := history_ring_semantics doorM 2 doorRunInputs doorInstC3 (by rfl)
  exact ⟨by rfl, h.1, h.2.2.1⟩

/-! Model of the `define_state_machine!` macro (`macros.rs`).  A machine
is generated from the declared transition table, a list of
`(from, input, to)` entries in declaration order. -/

/-- The generated `next_state`: one match arm per declared entry in
declaration order, so the FIRST matching arm wins (later duplicates are
the `unreachable_patterns` the macro explicitly allows); the wildcard
arm yields `None`. -/
def tblNextState [DecidableEq σ] [DecidableEq ι]
    (tbl : List (σ × ι × σ)) (s : σ) (i : ι) : Option σ :=
  (tbl.find? (fun e => decide (e.1 = s ∧ e.2.1 = i))).map (fun e => e.2.2)

/-- The generated `valid_inputs`: for every declared entry whose from
state matches, push its input, in declaration order (duplicates kept). -/
def tblValidInputs [DecidableEq σ] (tbl : List (σ × ι × σ)) (s : σ) : List ι :=
  (tbl.filter (fun e => decide (e.1 = s))).map (fun e => e.2.1)

/-- The full Definition the macro generates from a table (plus the
declared state list, input list and initial state). -/
def tblMachine [DecidableEq σ] [DecidableEq ι] (tbl : List (σ × ι × σ))
    (states : List σ) (inputs : List ι) (init : σ) : StateMachine σ ι :=
  ⟨states, inputs, tblValidInputs tbl, tblNextState tbl, init⟩

/-- For macro-generated machines, `next_state` is defined exactly on the
declared-valid inputs. -/
lemma tblNextState_isSome_iff [DecidableEq σ] [DecidableEq ι]
    (tbl : List (σ × ι × σ)) (s : σ) (i : ι) :
    (tblNextState tbl s i).isSome = true ↔ i ∈ tblValidInputs tbl s := by
  unfold tblNextState tblValidInputs
  rw [Option.isSome_map', List.find?_isSome]
  simp only [List.mem_map, List.mem_filter, decide_eq_true_eq]
  constructor
  · rintro ⟨e, he, h1, h2⟩
    exact ⟨e, ⟨he, h1⟩, h2⟩
  · rintro ⟨e, ⟨he, h1⟩, h2⟩
    exact ⟨e, he, h1, h2⟩

/-- Claim C10: for every macro-generated Definition, `next_state(s, i)`
is `Some` exactly when `i ∈ valid_inputs(s)`, and consequently
`transition` can never take its `NoTransition` branch on such a
machine. -/
theorem tbl_no_transition_unreachable [DecidableEq σ] [DecidableEq ι]
    (tbl : List (σ × ι × σ)) (states : List σ) (inputs : List ι) (init : σ) :
    (∀ (s : σ) (i : ι), (tblNextState tbl s i).isSome = true ↔ i ∈ tblValidInputs tbl s) ∧
    (∀ (inst : StateMachineInstance σ ι κ) (i : ι) (s0 : σ) (i0 : ι),
      (inst.transition (tblMachine tbl states inputs init) i).1 ≠
        TransitionResult.noTransition s0 i0) := by
  refine ⟨fun s i => tblNextState_isSome_iff tbl s i, ?_⟩
  intro inst i s0 i0 hres
  unfold StateMachineInstance.transition at hres
  split at hres
  case isFalse hacc => simp at hres
  case isTrue hacc =>
    split at hres
    case h_1 s hnext =>
      simp only [] at hres
      split at hres <;> simp at hres
    case h_2 hnone =>
      have hmem : i ∈ tblValidInputs tbl inst.current_state := by
        have := of_decide_eq_true hacc
        exact this
      have hsome := (tblNextState_isSome_iff tbl inst.current_state i).mpr hmem
      have hnone' : tblNextState tbl inst.current_state i = none := hnone
      rw [hnone'] at hsome
      simp at hsome

/-- The door-machine transition table of spec scenario 1, in declaration
order. -/
def doorTbl : List (DoorState × DoorInput × DoorState) :=
  [(.Closed, .OpenDoor, .Open), (.Open, .CloseDoor, .Closed),
   (.Closed, .Lock, .Locked), (.Locked, .Unlock, .Closed)]

/-- The macro-generated door machine. -/
def doorTblM : StateMachine DoorState DoorInput :=
  tblMachine doorTbl [.Closed, .Open, .Locked] [.OpenDoor, .CloseDoor, .Lock, .Unlock] .Closed

/-- A fresh instance of the macro-generated door machine. -/
def doorTblInst : StateMachineInstance DoorState DoorInput Nat :=
  StateMachineInstance.new doorTblM Nat

/-- Witness for C10 at the door table: `OpenDoor` is valid and defined at
`Closed`, and a rejected input yields `InvalidInput`, not
`NoTransition`. -/
theorem tbl_no_transition_unreachable_witness :
    ((tblNextState doorTbl DoorState.Closed DoorInput.OpenDoor).isSome = true ↔
      DoorInput.OpenDoor ∈ tblValidInputs doorTbl DoorState.Closed) ∧
    (doorTblInst.transition doorTblM DoorInput.CloseDoor).1 ≠
      TransitionResult.noTransition DoorState.Closed DoorInput.CloseDoor :=
  ⟨(@tbl_no_transition_unreachable DoorState DoorInput Nat _ _ doorTbl
      [.Closed, .Open, .Locked] [.OpenDoor, .CloseDoor, .Lock, .Unlock]
      .Closed).1 DoorState.Closed DoorInput.OpenDoor,
   (@tbl_no_transition_unreachable DoorState DoorInput Nat _ _ doorTbl
      [.Closed, .Open, .Locked] [.OpenDoor, .CloseDoor, .Lock, .Unlock]
      .Closed).2 doorTblInst DoorInput.CloseDoor
      DoorState.Closed DoorInput.CloseDoor⟩

/-- A table with two entries for the same `(state, input)` pair and
different targets; the last-declared duplicate targets `SA`. -/
def dupTbl : List (LState × LInput × LState) := [(.SA, .Go, .SB), (.SA, .Go, .SA)]

/-- Counterexample to claim C6 as stated: on `dupTbl` the generated
`next_state` returns the FIRST-declared target `SB`, not the target `SA`
of the last-declared duplicate entry. -/
theorem dup_last_declared_counterexample :
    tblNextState dupTbl LState.SA LInput.Go = some LState.SB ∧
    dupTbl.getLast?.map (fun e => e.2.2) = some LState.SA ∧
    (some LState.SB : Option LState) ≠ some LState.SA := by
  decide

/-- Claim C6 as amended: with duplicate `(state, input)` entries the
generated `next_state` silently returns the target of the
first-declared entry, whatever conflicting duplicates follow; nothing is
rejected at construction time. -/
theorem dup_first_declared_wins [DecidableEq σ] [DecidableEq ι]
    (pre post : List (σ × ι × σ)) (s : σ) (i : ι) (t : σ)
    (hpre : ∀ e ∈ pre, ¬(e.1 = s ∧ e.2.1 = i)) :
    tblNextState (pre ++ (s, i, t) :: post) s i = some t := by
  induction pre with
  | nil => simp [tblNextState, List.find?]
  | cons e pre ih =>
    have he := hpre e (by simp)
    rw [List.cons_append]
    simp only [tblNextState, List.find?]
    rw [decide_eq_false he]
    exact ih fun e' he' => hpre e' (by simp [he'])

/-- Witness for the amended C6: on `dupTbl` (no earlier match before the
first `(SA, Go)` entry) the result is the first-declared target `SB`. -/
theorem dup_first_declared_wins_witness :
    (∀ e ∈ ([] : List (LState × LInput × LState)), ¬(e.1 = LState.SA ∧ e.2.1 = LInput.Go)) ∧
    tblNextState dupTbl LState.SA LInput.Go = some LState.SB :=
  ⟨by decide,
   dup_first_declared_wins [] [(.SA, .Go, .SA)] LState.SA LInput.Go LState.SB (by decide)⟩

/-! Graph-query engine (`query.rs`): edge relation, reachability (DFS
worklist of `reachable_states`), claims C8 and C9. -/

/-- One hop of the query engine's edge relation: some valid input of `s`
maps to `t` (exactly the edges both `reachable_states` and
`shortest_path` follow). -/
def StateMachine.Edge (M : StateMachine σ ι) (s t : σ) : Prop :=
  ∃ i, i ∈ M.valid_inputs s ∧ M.next_state s i = some t

instance [DecidableEq σ] (M : StateMachine σ ι) (s t : σ) : Decidable (M.Edge s t) :=
  List.decidableBEx _ _

/-- Paths of exactly `n` edges from `s` to `t`. -/
def reachN (M : StateMachine σ ι) : Nat → σ → σ → Prop
  | 0, s, t => t = s
  | n + 1, s, t => ∃ u, reachN M n s u ∧ M.Edge u t

/-- Reachability via a finite sequence of valid transitions. -/
def Reach (M : StateMachine σ ι) (s t : σ) : Prop := ∃ n, reachN M n s t

lemma Reach.refl (M : StateMachine σ ι) (s : σ) : Reach M s s := ⟨0, rfl⟩

lemma Reach.snoc {M : StateMachine σ ι} {s u t : σ}
    (h : Reach M s u) (he : M.Edge u t) : Reach M s t := by
  obtain ⟨n, hn⟩ := h
  exact ⟨n + 1, u, hn, he⟩

/-- Any edge-closed set containing the start contains everything
reachable from it. -/
lemma reach_subset_closed (M : StateMachine σ ι) (src : σ) (v : List σ)
    (hsrc : src ∈ v) (hclosed : ∀ x ∈ v, ∀ y, M.Edge x y → y ∈ v) :
    ∀ x, Reach M src x → x ∈ v := by
  rintro x ⟨n, hn⟩
  induction n generalizing x with
  | zero => rw [show x = src from hn]; exact hsrc
  | succ n ih =>
    obtain ⟨u, hu, he⟩ := hn
    exact hclosed u (ih u hu) x he

/-- The successor states the worklist loops push for a popped state:
`next_state` over `valid_inputs`, in iteration order. -/
def dfsNeighbors (M : StateMachine σ ι) (s : σ) : List σ :=
  (M.valid_inputs s).filterMap (fun i => M.next_state s i)

lemma mem_dfsNeighbors {M : StateMachine σ ι} {s t : σ} :
    t ∈ dfsNeighbors M s ↔ M.Edge s t := by
  simp [dfsNeighbors, List.mem_filterMap, StateMachine.Edge]

/-- The worklist loop of `reachable_states` (query.rs lines 51-72):
`to_visit` is a stack (list head = `Vec` end); on popping an unvisited
state it is inserted into the visited set and its not-yet-visited
successors are pushed (a `Vec` push sequence, hence reversed onto the
list head).  The embedding adds fuel; `none` means the fuel ran out. -/
def dfsLoop [DecidableEq σ] (M : StateMachine σ ι) :
    Nat → List σ → List σ → Option (List σ)
  | _, [], visited => some visited
  | 0, _ :: _, _ => none
  | fuel + 1, current :: rest, visited =>
    if current ∈ visited then dfsLoop M fuel rest visited
    else
      let visited' := current :: visited
      let pushed := (dfsNeighbors M current).filter (fun t => decide (t ∉ visited'))
      dfsLoop M fuel (pushed.reverse ++ rest) visited'

/-- Upper bound on how many successors one popped state can push. -/
def neighborBound [DecidableEq σ] [Fintype σ] (M : StateMachine σ ι) : Nat :=
  Finset.univ.sup (fun s => (dfsNeighbors M s).length)

/-- Fuel sufficient for the worklist loops (proved below): every
iteration pops one element and every inserted state is fresh. -/
def queryFuel [DecidableEq σ] [Fintype σ] (M : StateMachine σ ι) : Nat :=
  Fintype.card σ * (neighborBound M + 2) + 1

/-- `StateMachineQuery::reachable_states`, with the proven-sufficient
fuel.  The returned list stands for the `HashSet` of visited states. -/
def reachable_states [DecidableEq σ] [Fintype σ] (M : StateMachine σ ι) (src : σ) :
    Option (List σ) :=
  dfsLoop M (queryFuel M) [src] []

lemma dfsLoop_nil [DecidableEq σ] (M : StateMachine σ ι) (fuel : Nat) (visited : List σ) :
    dfsLoop M fuel [] visited = some visited := by
  cases fuel <;> rfl

/-- When the worklist is empty, the invariants say the visited set is
exactly the reachable set. -/
lemma dfs_final [DecidableEq σ] (M : StateMachine σ ι) (src : σ) (visited : List σ)
    (hv : ∀ x ∈ visited, Reach M src x)
    (hsrc : src ∈ visited)
    (hcl : ∀ x ∈ visited, ∀ y, M.Edge x y → y ∈ visited) :
    ∀ x, x ∈ visited ↔ Reach M src x :=
  fun x => ⟨hv x, fun hr => reach_subset_closed M src visited hsrc hcl x hr⟩

/-- Arithmetic of the worklist measure: popping one element and pushing
at most `B2 - 2` fresh-visited successors strictly decreases it. -/
lemma measure_step (c B2 p r f : Nat) (h1 : 1 ≤ c) (h2 : c * B2 + r ≤ f) (h3 : p + 2 ≤ B2) :
    (c - 1) * B2 + (p + r) ≤ f := by
  have he : (c - 1) * B2 + B2 = c * B2 := by
    cases c with
    | zero => omega
    | succ d =>
      rw [Nat.succ_sub_one]
      ring
  omega

/-- Main DFS invariant argument: with fuel at least the standard
measure, the loop returns a duplicate-free visited set that is exactly
the set of states reachable from `src`. -/
lemma dfsLoop_spec [DecidableEq σ] [Fintype σ] (M : StateMachine σ ι) (src : σ) :
    ∀ (fuel : Nat) (stack visited : List σ),
      (Fintype.card σ - visited.length) * (neighborBound M + 2) + stack.length ≤ fuel →
      visited.Nodup →
      (∀ x ∈ visited, Reach M src x) →
      (∀ x ∈ stack, Reach M src x) →
      (src ∈ visited ∨ src ∈ stack) →
      (∀ x ∈ visited, ∀ y, M.Edge x y → y ∈ visited ∨ y ∈ stack) →
      ∃ v, dfsLoop M fuel stack visited = some v ∧
        v.Nodup ∧ ∀ x, x ∈ v ↔ Reach M src x := by
  intro fuel
  induction fuel with
  | zero =>
    intro stack visited hfuel hnd hv hs hsrc hcl
    cases stack with
    | nil =>
      have hsrc' : src ∈ visited := by
        rcases hsrc with h | h
        · exact h
        · exact absurd h (List.not_mem_nil src)
      refine ⟨visited, dfsLoop_nil M 0 visited, hnd, dfs_final M src visited hv hsrc' ?_⟩
      intro a ha y hy
      rcases hcl a ha y hy with h | h
      · exact h
      · exact absurd h (List.not_mem_nil y)
    | cons current rest =>
      rw [List.length_cons] at hfuel
      omega
  | succ fuel ih =>
    intro stack visited hfuel hnd hv hs hsrc hcl
    cases stack with
    | nil =>
      have hsrc' : src ∈ visited := by
        rcases hsrc with h | h
        · exact h
        · exact absurd h (List.not_mem_nil src)
      refine ⟨visited, dfsLoop_nil M _ visited, hnd, dfs_final M src visited hv hsrc' ?_⟩
      intro a ha y hy
      rcases hcl a ha y hy with h | h
      · exact h
      · exact absurd h (List.not_mem_nil y)
    | cons current rest =>
      rw [dfsLoop]
      by_cases hmem : current ∈ visited
      · rw [if_pos hmem]
        refine ih rest visited ?_ hnd hv (fun x hx => hs x (by simp [hx])) ?_ ?_
        · rw [List.length_cons] at hfuel
          omega
        · rcases hsrc with h | h
          · exact Or.inl h
          · rcases List.mem_cons.mp h with h | h
            · exact Or.inl (h ▸ hmem)
            · exact Or.inr h
        · intro x hx y hy
          rcases hcl x hx y hy with h | h
          · exact Or.inl h
          · rcases List.mem_cons.mp h with h | h
            · exact Or.inl (h ▸ hmem)
            · exact Or.inr h
      · rw [if_neg hmem]
        simp only []
        have hreach_cur : Reach M src current := hs current (by simp)
        have hnd' : (current :: visited).Nodup := List.nodup_cons.mpr ⟨hmem, hnd⟩
        have hcard : (current :: visited).length ≤ Fintype.card σ :=
          List.Nodup.length_le_card hnd'
        have hB : (dfsNeighbors M current).length ≤ neighborBound M := by
          unfold neighborBound
          exact Finset.le_sup (f := fun s => (dfsNeighbors M s).length)
            (Finset.mem_univ current)
        have hpushlen :
            ((dfsNeighbors M current).filter
              (fun t => decide (t ∉ current :: visited))).length ≤ neighborBound M :=
          le_trans (List.length_filter_le _ _) hB
        refine ih _ (current :: visited) ?_ hnd' ?_ ?_ ?_ ?_
        · rw [List.length_append, List.length_reverse, List.length_cons]
          rw [List.length_cons] at hfuel
          have h1 : 1 ≤ Fintype.card σ - visited.length := by
            rw [List.length_cons] at hcard
            omega
          have hsub : Fintype.card σ - (visited.length + 1) =
              Fintype.card σ - visited.length - 1 := by omega
          rw [hsub]
          exact measure_step (Fintype.card σ - visited.length) (neighborBound M + 2)
            _ rest.length fuel h1 (by omega) (by omega)
        · intro x hx
          rcases List.mem_cons.mp hx with h | h
          · exact h ▸ hreach_cur
          · exact hv x h
        · intro x hx
          rcases List.mem_append.mp hx with h | h
          · rw [List.mem_reverse] at h
            have := List.mem_filter.mp h
            exact hreach_cur.snoc (mem_dfsNeighbors.mp this.1)
          · exact hs x (by simp [h])
        · rcases hsrc with h | h
          · exact Or.inl (by simp [h])
          · rcases List.mem_cons.mp h with h | h
            · exact Or.inl (by simp [h])
            · exact Or.inr (List.mem_append.mpr (Or.inr h))
        · intro x hx y hy
          rcases List.mem_cons.mp hx with h | h
          · subst h
            by_cases hyv : y ∈ x :: visited
            · exact Or.inl hyv
            · refine Or.inr (List.mem_append.mpr (Or.inl ?_))
              rw [List.mem_reverse]
              exact List.mem_filter.mpr ⟨mem_dfsNeighbors.mpr hy, by simp [hyv]⟩
          · rcases hcl x h y hy with h2 | h2
            · exact Or.inl (by simp [h2])
            · rcases List.mem_cons.mp h2 with h2 | h2
              · exact Or.inl (by simp [h2])
              · exact Or.inr (List.mem_append.mpr (Or.inr h2))

/-- The DFS run from `src` with the standard fuel always completes and
computes exactly the reachable set. -/
lemma dfs_run [DecidableEq σ] [Fintype σ] (M : StateMachine σ ι) (src : σ) :
    ∃ v, dfsLoop M (queryFuel M) [src] [] = some v ∧
      v.Nodup ∧ ∀ x, x ∈ v ↔ Reach M src x :=
  dfsLoop_spec M src (queryFuel M) [src] []
    (by unfold queryFuel; simp)
    List.nodup_nil
    (by simp)
    (by
      intro x hx
      rw [List.mem_singleton] at hx
      subst hx
      exact Reach.refl M x)
    (Or.inr (by simp))
    (by simp)

/-- Claim C8: the set `reachable_states(S)` contains `S`, has no
duplicate entries, and contains `X` exactly when a finite sequence of
valid transitions leads from `S` to `X`. -/
theorem reachable_states_closure [DecidableEq σ] [Fintype σ]
    (M : StateMachine σ ι) (src : σ) (v : List σ)
    (h : reachable_states M src = some v) :
    src ∈ v ∧ v.Nodup ∧ ∀ x, x ∈ v ↔ Reach M src x := by
  obtain ⟨v₀, heq, hnd, hiff⟩ := dfs_run M src
  rw [reachable_states, heq] at h
  cases h
  exact ⟨(hiff src).mpr (Reach.refl M src), hnd, hiff⟩

/-- Claim C9: on a finite Definition the worklist loop of
`reachable_states` terminates (the fuel bound derived from the
visited-set deduplication measure is never exhausted), and each state is
inserted at most once. -/
theorem reachable_states_terminates [DecidableEq σ] [Fintype σ]
    (M : StateMachine σ ι) (src : σ) :
    ∃ v, reachable_states M src = some v ∧ v.Nodup := by
  obtain ⟨v₀, heq, hnd, hiff⟩ := dfs_run M src
  exact ⟨v₀, by rw [reachable_states]; exact heq, hnd⟩

/-- The visited set the DFS produces on the door machine from `Closed`. -/
def doorReach : List DoorState := [.Open, .Locked, .Closed]

/-- Witness for C8: on the door machine from `Closed` the query
terminates with the duplicate-free set `{Open, Locked, Closed}`, which
contains the start and is closed under reachability. -/
theorem reachable_states_closure_witness :
    reachable_states doorM DoorState.Closed = some doorReach ∧
    DoorState.Closed ∈ doorReach ∧ doorReach.Nodup ∧
    (DoorState.Open ∈ doorReach ↔ Reach doorM DoorState.Closed DoorState.Open) := by
  have h := reachable_states_closure doorM DoorState.Closed doorReach (by rfl)
  exact ⟨by rfl, h.1, h.2.1, h.2.2 DoorState.Open⟩

/-! BFS distance infrastructure for `shortest_path` (claim C5). -/

instance reachN_dec [DecidableEq σ] [Fintype σ] (M : StateMachine σ ι) :
    ∀ (n : Nat) (s t : σ), Decidable (reachN M n s t)
  | 0, s, t => by
    unfold reachN
    infer_instance
  | n + 1, s, t => by
    unfold reachN
    haveI : DecidablePred (fun u => reachN M n s u ∧ M.Edge u t) := fun u =>
      @instDecidableAnd _ _ (reachN_dec M n s u) inferInstance
    exact Fintype.decidableExistsFintype

/-- Reachability is decidable on a finite machine via the DFS run. -/
instance reach_dec [DecidableEq σ] [Fintype σ] (M : StateMachine σ ι) (s t : σ) :
    Decidable (Reach M s t) := by
  rcases hv : dfsLoop M (queryFuel M) [s] [] with _ | v
  · exact False.elim (by
      obtain ⟨v₀, heq, -, -⟩ := dfs_run M s
      rw [hv] at heq
      cases heq)
  · exact decidable_of_iff (t ∈ v) (by
      obtain ⟨v₀, heq, -, hiff⟩ := dfs_run M s
      rw [hv] at heq
      cases heq
      exact hiff t)

/-- BFS distance: the least number of edges of a valid transition
sequence from `s` to `t` (0 when unreachable). -/
def dist [DecidableEq σ] [Fintype σ] (M : StateMachine σ ι) (s t : σ) : Nat :=
  if h : Reach M s t then Nat.find h else 0

lemma dist_le [DecidableEq σ] [Fintype σ] {M : StateMachine σ ι} {s t : σ} {n : Nat}
    (hn : reachN M n s t) : dist M s t ≤ n := by
  unfold dist
  rw [dif_pos ⟨n, hn⟩]
  exact Nat.find_min' _ hn

lemma dist_reachN [DecidableEq σ] [Fintype σ] {M : StateMachine σ ι} {s t : σ}
    (h : Reach M s t) : reachN M (dist M s t) s t := by
  unfold dist
  rw [dif_pos h]
  exact Nat.find_spec h

lemma dist_self [DecidableEq σ] [Fintype σ] (M : StateMachine σ ι) (s : σ) :
    dist M s s = 0 :=
  Nat.le_zero.mp (dist_le (show reachN M 0 s s from rfl))

lemma dist_eq_zero [DecidableEq σ] [Fintype σ] {M : StateMachine σ ι} {s t : σ}
    (h : Reach M s t) (h0 : dist M s t = 0) : t = s := by
  have := dist_reachN h
  rw [h0] at this
  exact this

lemma dist_edge_le [DecidableEq σ] [Fintype σ] {M : StateMachine σ ι} {s u t : σ}
    (h : Reach M s u) (he : M.Edge u t) : dist M s t ≤ dist M s u + 1 :=
  dist_le ⟨u, dist_reachN h, he⟩

lemma reachN_cons {M : StateMachine σ ι} {s u t : σ} {n : Nat}
    (he : M.Edge s u) (hn : reachN M n u t) : reachN M (n + 1) s t := by
  induction n generalizing t with
  | zero =>
    rw [show t = u from hn]
    exact ⟨s, rfl, he⟩
  | succ n ih =>
    obtain ⟨w, hw, hwt⟩ := hn
    exact ⟨w, ih hw, hwt⟩

/-- A nonempty `Edge`-chain from `s` to `t` with `n + 1` states realizes
`reachN n`. -/
lemma chain_reachN (M : StateMachine σ ι) :
    ∀ (l : List σ) (s t : σ), l.Chain' M.Edge → l.head? = some s →
      l.getLast? = some t → reachN M (l.length - 1) s t := by
  intro l
  induction l with
  | nil =>
    intro s t _ hh _
    cases hh
  | cons a l₂ ih =>
    intro s t hc hh hl
    have hs : a = s := by
      rw [List.head?_cons] at hh
      exact Option.some.inj hh
    subst hs
    cases l₂ with
    | nil =>
      have ht : t = a := by
        rw [List.getLast?_singleton] at hl
        exact (Option.some.inj hl).symm
      subst ht
      exact rfl
    | cons b l₃ =>
      rw [List.chain'_cons] at hc
      have hrec := ih b t hc.2 (by rw [List.head?_cons]) (by rw [← hl, List.getLast?_cons_cons])
      have := reachN_cons hc.1 hrec
      simpa using this

/-- Association-list lookup, modelling `HashMap::get` on the parent map
(each key is inserted at most once, so list order is irrelevant). -/
def alookup [DecidableEq σ] : List (σ × σ) → σ → Option σ
  | [], _ => none
  | (k, v) :: rest, x => if x = k then some v else alookup rest x

/-- Path reconstruction of `shortest_path` (query.rs lines 166-177):
walk the parent pointers from the target, collecting states; the Rust
code then reverses, which the accumulator renders directly.  Fueled; the
chosen fuel is proved sufficient below. -/
def rebuildPath [DecidableEq σ] (par : List (σ × σ)) : Nat → σ → List σ → Option (List σ)
  | 0, _, _ => none
  | fuel + 1, cur, acc =>
    match alookup par cur with
    | none => some (cur :: acc)
    | some p => rebuildPath par fuel p (cur :: acc)

/-- The inner loop of `shortest_path` over the valid inputs of the
popped state: skip undefined or already-visited successors; otherwise
insert into visited, record the parent, push onto the queue, and if the
successor is the target, reconstruct and return the path at once. -/
def bfsScan [DecidableEq σ] (M : StateMachine σ ι) (tgt current : σ) :
    List ι → List σ → List σ → List (σ × σ) →
    (List σ × List σ × List (σ × σ)) ⊕ Option (List σ)
  | [], queue, visited, par => Sum.inl (queue, visited, par)
  | i :: rest, queue, visited, par =>
    match M.next_state current i with
    | none => bfsScan M tgt current rest queue visited par
    | some nxt =>
      if nxt ∈ visited then bfsScan M tgt current rest queue visited par
      else
        if nxt = tgt then
          Sum.inr (rebuildPath ((nxt, current) :: par)
            (((nxt, current) :: par).length + 1) tgt [])
        else
          bfsScan M tgt current rest (queue ++ [nxt]) (nxt :: visited) ((nxt, current) :: par)

/-- The outer BFS loop of `shortest_path` (query.rs lines 157-182):
pop the queue front, scan the popped state's inputs; an early return
inside the scan ends the search, an empty queue means no path.  `none`
at the outer layer marks fuel exhaustion (proved impossible). -/
def bfsLoop [DecidableEq σ] (M : StateMachine σ ι) (tgt : σ) :
    Nat → List σ → List σ → List (σ × σ) → Option (Option (List σ))
  | _, [], _, _ => some none
  | 0, _ :: _, _, _ => none
  | fuel + 1, current :: rest, visited, par =>
    match bfsScan M tgt current (M.valid_inputs current) rest visited par with
    | Sum.inr (some p) => some (some p)
    | Sum.inr none => none
    | Sum.inl (queue', visited', par') => bfsLoop M tgt fuel queue' visited' par'

/-- `StateMachineQuery::shortest_path` (query.rs lines 143-185): the
`from == to` early return, then BFS from `from` with `from` seeded into
queue and visited set. -/
def shortest_path [DecidableEq σ] [Fintype σ] (M : StateMachine σ ι) (src tgt : σ) :
    Option (Option (List σ)) :=
  if src = tgt then some (some [src])
  else bfsLoop M tgt (queryFuel M) [src] [src] []

lemma alookup_fresh [DecidableEq σ] (par : List (σ × σ)) (k v x : σ) (hx : x ≠ k) :
    alookup ((k, v) :: par) x = alookup par x := by
  simp [alookup, hx]

lemma alookup_self [DecidableEq σ] (par : List (σ × σ)) (k v : σ) :
    alookup ((k, v) :: par) k = some v := by
  unfold alookup
  rw [if_pos rfl]

/-- Correctness of the parent-pointer path reconstruction: starting at a
discovered state of distance `n` with fuel above `n`, it yields the walk
from `src` to that state along parents, an `Edge`-chain of `n + 1`
states. -/
lemma rebuildPath_spec [DecidableEq σ] [Fintype σ] (M : StateMachine σ ι) (src : σ)
    (par : List (σ × σ)) (v : List σ)
    (hpar_src : alookup par src = none)
    (hpar : ∀ x ∈ v, x ≠ src → ∃ p, alookup par x = some p ∧ p ∈ v ∧ M.Edge p x ∧
      dist M src p + 1 = dist M src x)
    (hreach : ∀ x ∈ v, Reach M src x) :
    ∀ (n : Nat) (x : σ) (acc : List σ) (fuel : Nat), x ∈ v → dist M src x = n →
      n < fuel →
      ∃ l, rebuildPath par fuel x acc = some (l ++ acc) ∧
        l.head? = some src ∧ l.getLast? = some x ∧ l.Chain' M.Edge ∧ l.length = n + 1 := by
  intro n
  induction n with
  | zero =>
    intro x acc fuel hx hd hf
    have hxs : x = src := dist_eq_zero (hreach x hx) hd
    subst hxs
    obtain ⟨f, rfl⟩ : ∃ f, fuel = f + 1 := ⟨fuel - 1, by omega⟩
    refine ⟨[x], ?_, rfl, rfl, List.chain'_singleton x, rfl⟩
    unfold rebuildPath
    rw [hpar_src]
    rfl
  | succ m ih =>
    intro x acc fuel hx hd hf
    have hxs : x ≠ src := by
      intro h
      subst h
      rw [dist_self] at hd
      cases hd
    obtain ⟨p, hlk, hpv, hpe, hpd⟩ := hpar x hx hxs
    have hpdist : dist M src p = m := by omega
    obtain ⟨f, rfl⟩ : ∃ f, fuel = f + 1 := ⟨fuel - 1, by omega⟩
    have hmf : m < f := by omega
    obtain ⟨l, hrec, hh, hlst, hch, hlen⟩ := ih p (x :: acc) f hpv hpdist hmf
    have hlnil : l ≠ [] := by
      intro h
      rw [h] at hh
      cases hh
    refine ⟨l ++ [x], ?_, ?_, List.getLast?_concat l, ?_, ?_⟩
    · unfold rebuildPath
      rw [hlk]
      show rebuildPath par f p (x :: acc) = some (l ++ [x] ++ acc)
      rw [hrec, List.append_assoc, List.singleton_append]
    · cases l with
      | nil => exact absurd rfl hlnil
      | cons a l₂ => rw [List.cons_append, List.head?_cons, ← hh, List.head?_cons]
    · refine List.chain'_append.mpr ⟨hch, List.chain'_singleton x, ?_⟩
      intro a ha b hb
      rw [hlst] at ha
      rw [List.head?_cons] at hb
      cases ha
      cases hb
      exact hpe
    · rw [List.length_append, hlen, List.length_singleton]

/-- BFS frontier property: while scanning the popped state `current` of
distance `d`, every reachable state not yet discovered lies at distance
at least `d + 1` (queue members all have distance at least `d`, and every
fully processed state has all successors discovered). -/
lemma frontier_dist [DecidableEq σ] [Fintype σ] (M : StateMachine σ ι) (src current : σ)
    (d : Nat) (queue visited : List σ)
    (hsrc_v : src ∈ visited)
    (hcur_d : dist M src current = d)
    (hq_lb : ∀ y ∈ queue, d ≤ dist M src y)
    (hclosed : ∀ x ∈ visited, x ∉ queue → x ≠ current → ∀ y, M.Edge x y → y ∈ visited) :
    ∀ u, Reach M src u → u ∉ visited → d + 1 ≤ dist M src u := by
  suffices h : ∀ n, ∀ u, Reach M src u → u ∉ visited → dist M src u = n → d + 1 ≤ n by
    exact fun u hru hnv => h (dist M src u) u hru hnv rfl
  intro n
  induction n using Nat.strong_induction_on with
  | _ n ih =>
    intro u hru hnv hn
    cases n with
    | zero =>
      have hu : u = src := dist_eq_zero hru hn
      exact absurd (hu ▸ hsrc_v) hnv
    | succ m =>
      have hr : reachN M (m + 1) src u := by
        rw [← hn]
        exact dist_reachN hru
      obtain ⟨w, hw, hwe⟩ := hr
      have hrw : Reach M src w := ⟨m, hw⟩
      have hdw : dist M src w ≤ m := dist_le hw
      by_cases hwv : w ∈ visited
      · by_cases hwq : w ∈ queue
        · have := hq_lb w hwq
          omega
        · by_cases hwc : w = current
          · subst hwc
            omega
          · exact absurd (hclosed w hwv hwq hwc u hwe) hnv
      · have hlt : dist M src w < m + 1 := by omega
        have := ih (dist M src w) hlt w hrw hwv rfl
        omega

/-- Invariant of the BFS state while scanning the inputs of the popped
state `current` (of distance `d`); `inputs` is the suffix of
`current`'s valid inputs still to be processed. -/
structure ScanInv [DecidableEq σ] [Fintype σ] (M : StateMachine σ ι)
    (src tgt current : σ) (d : Nat) (inputs : List ι)
    (queue visited : List σ) (par : List (σ × σ)) : Prop where
  nodup : visited.Nodup
  src_mem : src ∈ visited
  vis_reach : ∀ x ∈ visited, Reach M src x
  q_sub : ∀ x ∈ queue, x ∈ visited
  cur_mem : current ∈ visited
  cur_dist : dist M src current = d
  tgt_not : tgt ∉ visited
  q_lb : ∀ y ∈ queue, d ≤ dist M src y
  q_ub : ∀ y ∈ queue, dist M src y ≤ d + 1
  q_sorted : List.Pairwise (fun a b => dist M src a ≤ dist M src b) queue
  closed : ∀ x ∈ visited, x ∉ queue → x ≠ current → ∀ y, M.Edge x y → y ∈ visited
  cur_scanned : ∀ j ∈ M.valid_inputs current,
    (∀ t, M.next_state current j = some t → t ∈ visited) ∨ j ∈ inputs
  par_src : alookup par src = none
  par_spec : ∀ x ∈ visited, x ≠ src → ∃ p, alookup par x = some p ∧ p ∈ visited ∧
    M.Edge p x ∧ dist M src p + 1 = dist M src x
  par_keys : ∀ e ∈ par, e.1 ∈ visited ∧ e.1 ≠ src
  dist_par : ∀ x ∈ visited, dist M src x ≤ par.length

/-- Pushing one fresh element pays for itself in the BFS measure. -/
lemma measure_push (c B2 q : Nat) (h1 : 1 ≤ c) (h2 : 2 ≤ B2) :
    (c - 1) * B2 + (q + 1) ≤ c * B2 + q := by
  have he : (c - 1) * B2 + B2 = c * B2 := by
    cases c with
    | zero => omega
    | succ d =>
      rw [Nat.succ_sub_one]
      ring
  omega

/-- The inner scan preserves the invariant (with its measure bounded by
the starting one) or returns a shortest path to the target. -/
lemma bfsScan_spec [DecidableEq σ] [Fintype σ] (M : StateMachine σ ι)
    (src tgt current : σ) (d : Nat) :
    ∀ (inputs : List ι) (queue visited : List σ) (par : List (σ × σ)),
      ScanInv M src tgt current d inputs queue visited par →
      (∀ j ∈ inputs, j ∈ M.valid_inputs current) →
      (∃ q' v' par',
        bfsScan M tgt current inputs queue visited par = Sum.inl (q', v', par') ∧
        ScanInv M src tgt current d [] q' v' par' ∧
        (Fintype.card σ - v'.length) * (neighborBound M + 2) + q'.length ≤
          (Fintype.card σ - visited.length) * (neighborBound M + 2) + queue.length) ∨
      (∃ p, bfsScan M tgt current inputs queue visited par = Sum.inr (some p) ∧
        p.head? = some src ∧ p.getLast? = some tgt ∧ p.Chain' M.Edge ∧
        p.length = dist M src tgt + 1) := by
  intro inputs
  induction inputs with
  | nil =>
    intro queue visited par inv hsub
    exact Or.inl ⟨queue, visited, par, rfl, inv, le_refl _⟩
  | cons i rest ih =>
    intro queue visited par inv hsub
    have hsub' : ∀ j ∈ rest, j ∈ M.valid_inputs current := fun j hj => hsub j (by simp [hj])
    cases hnx : M.next_state current i with
    | none =>
      have inv' : ScanInv M src tgt current d rest queue visited par :=
        { inv with
          cur_scanned := by
            intro j hj
            rcases inv.cur_scanned j hj with h | h
            · exact Or.inl h
            · rcases List.mem_cons.mp h with h | h
              · subst h
                refine Or.inl ?_
                intro t ht
                rw [hnx] at ht
                cases ht
              · exact Or.inr h }
      have heq : bfsScan M tgt current (i :: rest) queue visited par =
          bfsScan M tgt current rest queue visited par := by
        simp only [bfsScan, hnx]
      rw [heq]
      exact ih queue visited par inv' hsub'
    | some nxt =>
      by_cases hv : nxt ∈ visited
      · have inv' : ScanInv M src tgt current d rest queue visited par :=
          { inv with
            cur_scanned := by
              intro j hj
              rcases inv.cur_scanned j hj with h | h
              · exact Or.inl h
              · rcases List.mem_cons.mp h with h | h
                · subst h
                  refine Or.inl ?_
                  intro t ht
                  rw [hnx] at ht
                  cases ht
                  exact hv
                · exact Or.inr h }
        have heq : bfsScan M tgt current (i :: rest) queue visited par =
            bfsScan M tgt current rest queue visited par := by
          simp only [bfsScan, hnx]
          rw [if_pos hv]
        rw [heq]
        exact ih queue visited par inv' hsub'
      · have hEdge : M.Edge current nxt := ⟨i, hsub i (by simp), hnx⟩
        have hReach_cur : Reach M src current := inv.vis_reach current inv.cur_mem
        have hReach_nxt : Reach M src nxt := hReach_cur.snoc hEdge
        have hub : dist M src nxt ≤ d + 1 := by
          have := dist_edge_le hReach_cur hEdge
          rw [inv.cur_dist] at this
          exact this
        have hlb : d + 1 ≤ dist M src nxt :=
          frontier_dist M src current d queue visited inv.src_mem inv.cur_dist
            inv.q_lb inv.closed nxt hReach_nxt hv
        have hdn : dist M src nxt = d + 1 := le_antisymm hub hlb
        have hd_par : d ≤ par.length := by
          have := inv.dist_par current inv.cur_mem
          rw [inv.cur_dist] at this
          exact this
        by_cases ht : nxt = tgt
        · subst ht
          refine Or.inr ?_
          have heq : bfsScan M nxt current (i :: rest) queue visited par =
              Sum.inr (rebuildPath ((nxt, current) :: par)
                (((nxt, current) :: par).length + 1) nxt []) := by
            simp only [bfsScan, hnx]
            rw [if_neg hv]
            simp
          have hsrc_ne : src ≠ nxt := by
            intro h
            rw [← h] at hv
            exact hv inv.src_mem
          have hpar_src' : alookup ((nxt, current) :: par) src = none := by
            rw [alookup_fresh par nxt current src hsrc_ne]
            exact inv.par_src
          have hpar' : ∀ x ∈ nxt :: visited, x ≠ src →
              ∃ p, alookup ((nxt, current) :: par) x = some p ∧ p ∈ nxt :: visited ∧
                M.Edge p x ∧ dist M src p + 1 = dist M src x := by
            intro x hx hxs
            rcases List.mem_cons.mp hx with h | h
            · subst h
              refine ⟨current, alookup_self par x current, by simp [inv.cur_mem], hEdge, ?_⟩
              rw [inv.cur_dist, hdn]
            · have hxn : x ≠ nxt := by
                intro hc
                rw [hc] at h
                exact hv h
              obtain ⟨p, h1, h2, h3, h4⟩ := inv.par_spec x h hxs
              exact ⟨p, by rw [alookup_fresh par nxt current x hxn]; exact h1,
                by simp [h2], h3, h4⟩
          have hreach' : ∀ x ∈ nxt :: visited, Reach M src x := by
            intro x hx
            rcases List.mem_cons.mp hx with h | h
            · exact h ▸ hReach_nxt
            · exact inv.vis_reach x h
          obtain ⟨l, hrb, hh, hlst, hch, hlen⟩ :=
            rebuildPath_spec M src ((nxt, current) :: par) (nxt :: visited)
              hpar_src' hpar' hreach' (dist M src nxt) nxt []
              (((nxt, current) :: par).length + 1) (by simp) rfl
              (by
                rw [hdn, List.length_cons]
                omega)
          rw [List.append_nil] at hrb
          refine ⟨l, ?_, hh, hlst, hch, hlen⟩
          rw [heq, hrb]
        · have heq : bfsScan M tgt current (i :: rest) queue visited par =
              bfsScan M tgt current rest (queue ++ [nxt]) (nxt :: visited)
                ((nxt, current) :: par) := by
            simp only [bfsScan, hnx]
            rw [if_neg hv, if_neg ht]
          have hnxt_src : nxt ≠ src := by
            intro h
            rw [h] at hv
            exact hv inv.src_mem
          have inv' : ScanInv M src tgt current d rest (queue ++ [nxt]) (nxt :: visited)
              ((nxt, current) :: par) :=
            { nodup := List.nodup_cons.mpr ⟨hv, inv.nodup⟩
              src_mem := by simp [inv.src_mem]
              vis_reach := by
                intro x hx
                rcases List.mem_cons.mp hx with h | h
                · exact h ▸ hReach_nxt
                · exact inv.vis_reach x h
              q_sub := by
                intro x hx
                rcases List.mem_append.mp hx with h | h
                · simp [inv.q_sub x h]
                · simp [List.mem_singleton.mp h]
              cur_mem := by simp [inv.cur_mem]
              cur_dist := inv.cur_dist
              tgt_not := by
                intro hc
                rcases List.mem_cons.mp hc with h | h
                · exact ht h.symm
                · exact inv.tgt_not h
              q_lb := by
                intro y hy
                rcases List.mem_append.mp hy with h | h
                · exact inv.q_lb y h
                · rw [List.mem_singleton.mp h, hdn]
                  omega
              q_ub := by
                intro y hy
                rcases List.mem_append.mp hy with h | h
                · exact inv.q_ub y h
                · rw [List.mem_singleton.mp h, hdn]
              q_sorted := by
                rw [List.pairwise_append]
                refine ⟨inv.q_sorted, List.pairwise_singleton _ _, ?_⟩
                intro a ha b hb
                rw [List.mem_singleton.mp hb, hdn]
                exact inv.q_ub a ha
              closed := by
                intro x hx hxq hxc y hy
                have hxq' : x ∉ queue := fun hc => hxq (List.mem_append.mpr (Or.inl hc))
                rcases List.mem_cons.mp hx with h | h
                · exact absurd (List.mem_append.mpr (Or.inr (by simp [h]))) hxq
                · exact List.mem_cons.mpr (Or.inr (inv.closed x h hxq' hxc y hy))
              cur_scanned := by
                intro j hj
                rcases inv.cur_scanned j hj with h | h
                · exact Or.inl (fun t hjt => by simp [h t hjt])
                · rcases List.mem_cons.mp h with h | h
                  · subst h
                    refine Or.inl ?_
                    intro t hjt
                    rw [hnx] at hjt
                    cases hjt
                    simp
                  · exact Or.inr h
              par_src := by
                rw [alookup_fresh par nxt current src (fun hc => hnxt_src hc.symm)]
                exact inv.par_src
              par_spec := by
                intro x hx hxs
                rcases List.mem_cons.mp hx with h | h
                · subst h
                  refine ⟨current, alookup_self par x current, by simp [inv.cur_mem],
                    hEdge, ?_⟩
                  rw [inv.cur_dist, hdn]
                · have hxn : x ≠ nxt := by
                    intro hc
                    rw [hc] at h
                    exact hv h
                  obtain ⟨p, h1, h2, h3, h4⟩ := inv.par_spec x h hxs
                  exact ⟨p, by rw [alookup_fresh par nxt current x hxn]; exact h1,
                    by simp [h2], h3, h4⟩
              par_keys := by
                intro e he
                rcases List.mem_cons.mp he with h | h
                · rw [h]
                  exact ⟨by simp, hnxt_src⟩
                · obtain ⟨h1, h2⟩ := inv.par_keys e h
                  exact ⟨by simp [h1], h2⟩
              dist_par := by
                intro x hx
                rw [List.length_cons]
                rcases List.mem_cons.mp hx with h | h
                · subst h
                  rw [hdn]
                  omega
                · have := inv.dist_par x h
                  omega }
          rw [heq]
          rcases ih (queue ++ [nxt]) (nxt :: visited) ((nxt, current) :: par) inv' hsub'
            with ⟨q', v', par', heq2, inv2, hm⟩ | hfound
          · refine Or.inl ⟨q', v', par', heq2, inv2, le_trans hm ?_⟩
            rw [List.length_cons, List.length_append, List.length_singleton]
            have hcard : visited.length + 1 ≤ Fintype.card σ :=
              List.Nodup.length_le_card (List.nodup_cons.mpr ⟨hv, inv.nodup⟩)
            have hsub2 : Fintype.card σ - (visited.length + 1) =
                Fintype.card σ - visited.length - 1 := by omega
            rw [hsub2]
            exact measure_push (Fintype.card σ - visited.length) (neighborBound M + 2)
              queue.length (by omega) (by omega)
          · exact Or.inr hfound

/-- Loop-head invariant of the BFS of `shortest_path`. -/
structure BFSInv [DecidableEq σ] [Fintype σ] (M : StateMachine σ ι) (src tgt : σ)
    (queue visited : List σ) (par : List (σ × σ)) : Prop where
  nodup : visited.Nodup
  src_mem : src ∈ visited
  vis_reach : ∀ x ∈ visited, Reach M src x
  q_sub : ∀ x ∈ queue, x ∈ visited
  tgt_not : tgt ∉ visited
  closed : ∀ x ∈ visited, x ∉ queue → ∀ y, M.Edge x y → y ∈ visited
  q_sorted : List.Pairwise (fun a b => dist M src a ≤ dist M src b) queue
  spread : ∀ x ∈ queue, ∀ y ∈ queue, dist M src y ≤ dist M src x + 1
  par_src : alookup par src = none
  par_spec : ∀ x ∈ visited, x ≠ src → ∃ p, alookup par x = some p ∧ p ∈ visited ∧
    M.Edge p x ∧ dist M src p + 1 = dist M src x
  par_keys : ∀ e ∈ par, e.1 ∈ visited ∧ e.1 ≠ src
  dist_par : ∀ x ∈ visited, dist M src x ≤ par.length

lemma bfsLoop_nil [DecidableEq σ] (M : StateMachine σ ι) (tgt : σ) (fuel : Nat)
    (visited : List σ) (par : List (σ × σ)) :
    bfsLoop M tgt fuel [] visited par = some none := by
  cases fuel <;> rfl

/-- The outer BFS loop never exhausts its fuel under the invariant;
an empty-queue return certifies unreachability and an early return
yields a path whose edge count is the BFS distance. -/
lemma bfsLoop_spec [DecidableEq σ] [Fintype σ] (M : StateMachine σ ι) (src tgt : σ) :
    ∀ (fuel : Nat) (queue visited : List σ) (par : List (σ × σ)),
      (Fintype.card σ - visited.length) * (neighborBound M + 2) + queue.length ≤ fuel →
      BFSInv M src tgt queue visited par →
      ∃ res, bfsLoop M tgt fuel queue visited par = some res ∧
        (res = none → ¬ Reach M src tgt) ∧
        (∀ p, res = some p → p.head? = some src ∧ p.getLast? = some tgt ∧
          p.Chain' M.Edge ∧ p.length = dist M src tgt + 1) := by
  have hnil : ∀ (fuel : Nat) (visited : List σ) (par : List (σ × σ)),
      BFSInv M src tgt [] visited par →
      ∃ res, bfsLoop M tgt fuel [] visited par = some res ∧
        (res = none → ¬ Reach M src tgt) ∧
        (∀ p, res = some p → p.head? = some src ∧ p.getLast? = some tgt ∧
          p.Chain' M.Edge ∧ p.length = dist M src tgt + 1) := by
    intro fuel visited par inv
    refine ⟨none, bfsLoop_nil M tgt fuel visited par, ?_, ?_⟩
    · intro _ hR
      exact inv.tgt_not (reach_subset_closed M src visited inv.src_mem
        (fun a ha y hy => inv.closed a ha (List.not_mem_nil a) y hy) tgt hR)
    · intro p hp
      cases hp
  intro fuel
  induction fuel with
  | zero =>
    intro queue visited par hfuel inv
    cases queue with
    | nil => exact hnil 0 visited par inv
    | cons current rest =>
      rw [List.length_cons] at hfuel
      omega
  | succ fuel ih =>
    intro queue visited par hfuel inv
    cases queue with
    | nil => exact hnil (fuel + 1) visited par inv
    | cons current rest =>
      have hcur_mem : current ∈ visited := inv.q_sub current (by simp)
      have scaninv : ScanInv M src tgt current (dist M src current)
          (M.valid_inputs current) rest visited par :=
        { nodup := inv.nodup
          src_mem := inv.src_mem
          vis_reach := inv.vis_reach
          q_sub := fun x hx => inv.q_sub x (by simp [hx])
          cur_mem := hcur_mem
          cur_dist := rfl
          tgt_not := inv.tgt_not
          q_lb := fun y hy => (List.pairwise_cons.mp inv.q_sorted).1 y hy
          q_ub := fun y hy => inv.spread current (by simp) y (by simp [hy])
          q_sorted := (List.pairwise_cons.mp inv.q_sorted).2
          closed := by
            intro x hx hxq hxc y hy
            refine inv.closed x hx ?_ y hy
            intro hc
            rcases List.mem_cons.mp hc with h | h
            · exact hxc h
            · exact hxq h
          cur_scanned := fun j hj => Or.inr hj
          par_src := inv.par_src
          par_spec := inv.par_spec
          par_keys := inv.par_keys
          dist_par := inv.dist_par }
      rcases bfsScan_spec M src tgt current (dist M src current) (M.valid_inputs current)
        rest visited par scaninv (fun j hj => hj)
        with ⟨q', v', par', heq, inv2, hm⟩ | ⟨p, heq, hh, hl, hc, hlen⟩
      · have binv : BFSInv M src tgt q' v' par' :=
          { nodup := inv2.nodup
            src_mem := inv2.src_mem
            vis_reach := inv2.vis_reach
            q_sub := inv2.q_sub
            tgt_not := inv2.tgt_not
            closed := by
              intro x hx hxq y hy
              by_cases hxc : x = current
              · subst hxc
                obtain ⟨j, hjv, hjn⟩ := hy
                rcases inv2.cur_scanned j hjv with h | h
                · exact h y hjn
                · cases h
              · exact inv2.closed x hx hxq hxc y hy
            q_sorted := inv2.q_sorted
            spread := by
              intro x hx y hy
              have h1 := inv2.q_lb x hx
              have h2 := inv2.q_ub y hy
              omega
            par_src := inv2.par_src
            par_spec := inv2.par_spec
            par_keys := inv2.par_keys
            dist_par := inv2.dist_par }
        have hfuel' : (Fintype.card σ - v'.length) * (neighborBound M + 2) + q'.length ≤
            fuel := by
          rw [List.length_cons] at hfuel
          omega
        obtain ⟨res, heq2, h1, h2⟩ := ih q' v' par' hfuel' binv
        refine ⟨res, ?_, h1, h2⟩
        simp only [bfsLoop, heq]
        exact heq2
      · refine ⟨some p, ?_, ?_, ?_⟩
        · simp only [bfsLoop, heq]
        · intro h
          cases h
        · intro p' hp
          cases hp
          exact ⟨hh, hl, hc, hlen⟩

/-- Claim C5: `shortest_path(from, to)` returns `[from]` when
`from = to`; otherwise, when `to` is reachable it returns a sequence
starting at `from`, ending at `to`, whose consecutive states are joined
by valid transitions and whose edge count is the BFS distance (no valid
transition sequence between the endpoints is shorter); when `to` is
unreachable it returns no path.  The outer `some` certifies the fuelled
embedding completed, which it always does. -/
theorem shortest_path_spec [DecidableEq σ] [Fintype σ] (M : StateMachine σ ι)
    (src tgt : σ) :
    ∃ res, shortest_path M src tgt = some res ∧
      (src = tgt → res = some [src]) ∧
      (res = none → ¬ Reach M src tgt) ∧
      (Reach M src tgt → ∃ p, res = some p) ∧
      (∀ p, res = some p → p.head? = some src ∧ p.getLast? = some tgt ∧
        p.Chain' M.Edge ∧ p.length = dist M src tgt + 1 ∧
        ∀ q : List σ, List.Chain' M.Edge q → q.head? = some src →
          q.getLast? = some tgt → p.length ≤ q.length) := by
  by_cases hst : src = tgt
  · subst hst
    refine ⟨some [src], ?_, ?_, ?_, ?_, ?_⟩
    · rw [shortest_path, if_pos rfl]
    · exact fun _ => rfl
    · intro h
      cases h
    · exact fun _ => ⟨[src], rfl⟩
    intro p hp
    cases hp
    refine ⟨rfl, rfl, List.chain'_singleton src, by simp [dist_self], ?_⟩
    intro q hqc hqh hql
    have hqne : q ≠ [] := by
      intro h
      rw [h] at hqh
      cases hqh
    have := List.length_pos.mpr hqne
    simpa using this
  · have binv : BFSInv M src tgt [src] [src] [] :=
      { nodup := List.nodup_singleton src
        src_mem := by simp
        vis_reach := by
          intro x hx
          rw [List.mem_singleton.mp hx]
          exact Reach.refl M src
        q_sub := fun x hx => hx
        tgt_not := by
          intro hc
          exact hst (List.mem_singleton.mp hc).symm
        closed := by
          intro x hx hxq
          exact absurd hx hxq
        q_sorted := List.pairwise_singleton _ _
        spread := by
          intro x hx y hy
          rw [List.mem_singleton.mp hx, List.mem_singleton.mp hy]
          omega
        par_src := rfl
        par_spec := by
          intro x hx hxs
          exact absurd (List.mem_singleton.mp hx) hxs
        par_keys := by
          intro e he
          cases he
        dist_par := by
          intro x hx
          rw [List.mem_singleton.mp hx, dist_self]
          exact Nat.zero_le _ }
    have hfuel : (Fintype.card σ - [src].length) * (neighborBound M + 2) +
        ([src] : List σ).length ≤ queryFuel M := by
      unfold queryFuel
      have : (Fintype.card σ - 1) * (neighborBound M + 2) ≤
          Fintype.card σ * (neighborBound M + 2) :=
        Nat.mul_le_mul_right _ (Nat.sub_le _ _)
      simp only [List.length_singleton]
      omega
    obtain ⟨res, heq, h1, h2⟩ := bfsLoop_spec M src tgt (queryFuel M) [src] [src] []
      hfuel binv
    refine ⟨res, by rw [shortest_path, if_neg hst]; exact heq,
      fun h => absurd h hst, h1, ?_, ?_⟩
    · intro hR
      cases res with
      | none => exact absurd hR (h1 rfl)
      | some p => exact ⟨p, rfl⟩
    · intro p hp
      obtain ⟨hh, hl, hc, hlen⟩ := h2 p hp
      refine ⟨hh, hl, hc, hlen, ?_⟩
      intro q hqc hqh hql
      have hq := chain_reachN M q src tgt hqc hqh hql
      have hd := dist_le hq
      have hqne : q ≠ [] := by
        intro h
        rw [h] at hqh
        cases hqh
      have hq1 := List.length_pos.mpr hqne
      omega

end Yasm
